import Mathlib

/-!
# Verification of the tegola geometry-validation core and log-level module

Shallow embedding of the `validate` plane-sweep intersection scanner
(`src/provider/mbtiles/mbtiles.go`, second source unit: package `validate`)
and of the level-gated logging module (`src/internal/log/log.go`).

Modelling conventions:
* Go `float64` coordinates are modelled as exact integers `ℤ`: every claim
  is a sign/ordering property of the orientation predicate and of the
  lexicographic event order, and all statements and proofs are uniform in the
  ordered coordinate ring.  The only inexact value is the line-line crossing
  point of the modelled external solver, which no claim ever inspects (it only
  feeds the lazy `ptfn` closure).
* The helpers `maths.Pt`, `maths.Line`, `Line.IsLeft`,
  `Line.LeftRightMostAsLine` and `maths.Intersect` live in the tegola `maths`
  package, which is not part of the provided sources; they are modelled from
  the spec (each such definition is marked `Modelled from the spec:`).
* Go's `sort.Sort` only guarantees a permutation of the input that is
  non-decreasing for the `Less` relation; ties are in unspecified order.  The
  canonical queue is modelled with the stable `List.insertionSort`, and
  queue-order-sensitive statements are additionally stated over every valid
  sorted permutation (`ValidQueue`).
* The Go `map[int]struct{}` open set has unspecified iteration order; it is
  modelled as an insertion-ordered duplicate-free list (insert appends,
  delete filters), one concrete refinement of the unspecified order.
-/

namespace Tegola

/-- 2D point, `maths.Pt` with `float64` fields modelled as `ℤ`. -/
@[ext]
structure Pt where
  x : ℤ
  y : ℤ
  deriving DecidableEq

/-- A segment, `maths.Line` = `[2]maths.Pt`; field `p0` is index 0, `p1` is index 1. -/
@[ext]
structure Line where
  p0 : Pt
  p1 : Pt
  deriving DecidableEq

def defaultPt : Pt := ⟨0, 0⟩

def defaultLine : Line := ⟨defaultPt, defaultPt⟩

/-- `xyorder` (mbtiles.go lines 251-271): lexicographic comparison,
x-coordinate first, then y-coordinate; 1 / -1 / 0. -/
def xyorder (pt1 pt2 : Pt) : Int :=
  if pt1.x > pt2.x then 1
  else if pt1.x < pt2.x then -1
  else if pt1.y > pt2.y then 1
  else if pt1.y < pt2.y then -1
  else 0

/-- Modelled from the spec: `maths.Line.IsLeft` (tegola `maths` package, not in
`src/`).  Spec §4.1: signed magnitude, the cross product of `(B−A)` and
`(P−A)`; positive iff `P` lies left of the directed line `A→B`, zero iff
collinear. -/
def Line.IsLeft (l : Line) (p : Pt) : ℤ :=
  (l.p1.x - l.p0.x) * (p.y - l.p0.y) - (p.x - l.p0.x) * (l.p1.y - l.p0.y)

/-- Modelled from the spec: `maths.Line.LeftRightMostAsLine` (tegola `maths`
package, not in `src/`).  Spec §3/§4.1: the same two endpoints reordered so the
first precedes the second in (x, y) lexicographic order. -/
def Line.LeftRightMostAsLine (l : Line) : Line :=
  if xyorder l.p0 l.p1 ≤ 0 then l else ⟨l.p1, l.p0⟩

/-- Modelled from the spec: `maths.Intersect` (tegola `maths` package, not in
`src/`).  Spec §6: the closed-form line-line crossing point of two segments,
with a validity flag that is unused/undefined for parallel lines.  Over the
integer coordinate model the division is integer division, so the point is the
real solver value only when that value is integral; no claim inspects the
produced point, which only feeds the lazy `ptfn` closure. -/
def Intersect (l1 l2 : Line) : Pt × Bool :=
  let d := (l1.p1.x - l1.p0.x) * (l2.p1.y - l2.p0.y) -
    (l1.p1.y - l1.p0.y) * (l2.p1.x - l2.p0.x)
  if d = 0 then (defaultPt, false)
  else
    let t := ((l2.p0.x - l1.p0.x) * (l2.p1.y - l2.p0.y) -
      (l2.p0.y - l1.p0.y) * (l2.p1.x - l2.p0.x)) / d
    (⟨l1.p0.x + t * (l1.p1.x - l1.p0.x), l1.p0.y + t * (l1.p1.y - l1.p0.y)⟩, true)

/-- `DoesIntersect` (mbtiles.go lines 365-384): the two-sided straddle test on
canonicalized lines. -/
def DoesIntersect (s1 s2 : Line) : Bool :=
  let as2 := s2.LeftRightMostAsLine
  let as1 := s1.LeftRightMostAsLine
  let lsign := as1.IsLeft as2.p0
  let rsign := as1.IsLeft as2.p1
  if lsign * rsign > 0 then false
  else
    let lsign2 := as2.IsLeft as1.p0
    let rsign2 := as2.IsLeft as1.p1
    if lsign2 * rsign2 > 0 then false
    else true

/-- `eventType` (mbtiles.go lines 293-298). -/
inductive eventType where
  | LEFT
  | RIGHT
  deriving DecidableEq

/-- `event` (mbtiles.go lines 300-304); the `*maths.Pt` pointer is modelled by
the point value. -/
structure event where
  edge : Nat
  edgeType : eventType
  ev : Pt
  deriving DecidableEq

def dummyEvent : event := ⟨0, eventType.LEFT, defaultPt⟩

/-- The two events of segment `i` in their raw `edata` positions `2i, 2i+1`
(mbtiles.go lines 347-360): endpoint 0 first, endpoint 1 second, tagged
LEFT/RIGHT by `xyorder` of the two endpoints. -/
def segEvents (i : Nat) (s : Line) : List event :=
  if xyorder s.p0 s.p1 < 0 then
    [⟨i, eventType.LEFT, s.p0⟩, ⟨i, eventType.RIGHT, s.p1⟩]
  else
    [⟨i, eventType.RIGHT, s.p0⟩, ⟨i, eventType.LEFT, s.p1⟩]

/-- The unsorted event storage `eq.edata` with its index-offset loop. -/
def edataFrom : Nat → List Line → List event
  | _, [] => []
  | i, s :: rest => segEvents i s ++ edataFrom (i + 1) rest

/-- `eq.edata`: the 2n raw events of the segment list, in storage order. -/
def edata (segments : List Line) : List event :=
  edataFrom 0 segments

/-- The sort relation behind `XYOrderedEventPtr.Less` (mbtiles.go line 310):
the sorted queue is non-decreasing, i.e. pairwise `xyorder ≤ 0`. -/
def evLE (a b : event) : Prop :=
  xyorder a.ev b.ev ≤ 0

instance : DecidableRel evLE := fun a b =>
  inferInstanceAs (Decidable (xyorder a.ev b.ev ≤ 0))

/-- `NewEventQueue` (mbtiles.go lines 336-363): the sorted slice `eq.eq`.
Go's unstable `sort.Sort` is modelled by the stable insertion sort; statements
sensitive to tie order are additionally quantified over `ValidQueue`. -/
def NewEventQueue (segments : List Line) : List event :=
  List.insertionSort evLE (edata segments)

/-- Any event-pointer slice Go's `sort.Sort` may legally produce at
mbtiles.go line 361: a permutation of `edata` that is non-decreasing for the
`Less` relation. -/
def ValidQueue (segments : List Line) (q : List event) : Prop :=
  List.Perm (edata segments) q ∧ List.Sorted evLE q

/-- `Complement` (mbtiles.go lines 327-333): index arithmetic `2*edge` /
`2*edge+1` applied to the **sorted** slice `eq.eq`. -/
def Complement (eq : List event) (e : event) : event :=
  let idx := e.edge * 2
  if e.edgeType = eventType.LEFT then eq.getD (idx + 1) dummyEvent
  else eq.getD idx dummyEvent

/-- The callback type of `FindIntersects` (mbtiles.go line 386). -/
abbrev Cb := Nat → Nat → (Unit → Pt) → Bool

/-- The inner `for _, s := range segs` loop of `FindIntersects`
(mbtiles.go lines 419-442).  Returns the list of callback invocations made
(arguments and returned Bool) and whether the scan continues (`false` when the
callback aborted). -/
def innerLoop (segments : List Line) (ns : Nat) (evEdge : Nat) (fn : Cb) :
    List Nat → List ((Nat × Nat) × Bool) × Bool
  | [] => ([], true)
  | s :: rest =>
    if evEdge = s ∨ (s + 1) % ns = evEdge ∨ (evEdge + 1) % ns = s then
      innerLoop segments ns evEdge fn rest
    else
      let edge := segments.getD evEdge defaultLine
      let sedge := segments.getD s defaultLine
      if DoesIntersect edge sedge then
        let sd := if evEdge > s then (s, evEdge) else (evEdge, s)
        if fn sd.1 sd.2 (fun _ => (Intersect edge sedge).1) then
          let r := innerLoop segments ns evEdge fn rest
          ((sd, true) :: r.1, r.2)
        else ([(sd, false)], false)
      else
        innerLoop segments ns evEdge fn rest

/-- The outer event-draining loop of `FindIntersects`
(mbtiles.go lines 395-443), threading the open set `isegmap` (modelled as an
insertion-ordered duplicate-free list).  Produces the invocation log. -/
def scanEvents (segments : List Line) (ns : Nat) (fn : Cb) :
    List event → List Nat → List ((Nat × Nat) × Bool)
  | [], _ => []
  | e :: rest, opens =>
    if e.edge ∈ opens then
      let opens2 := opens.erase e.edge
      if opens2.isEmpty then scanEvents segments ns fn rest opens2
      else
        let r := innerLoop segments ns e.edge fn opens2
        if r.2 then r.1 ++ scanEvents segments ns fn rest opens2 else r.1
    else
      scanEvents segments ns fn rest (opens ++ [e.edge])

/-- `FindIntersects` run against an explicitly supplied event queue, including
the `ns < 3` guard (mbtiles.go lines 386-445). -/
def runWithQueue (segments : List Line) (q : List event) (fn : Cb) :
    List ((Nat × Nat) × Bool) :=
  if segments.length < 3 then [] else scanEvents segments segments.length fn q []

/-- `FindIntersects` (mbtiles.go lines 386-445), observed through its callback
invocation log (arguments passed and Bool returned, in invocation order). -/
def FindIntersectsLog (segments : List Line) (fn : Cb) :
    List ((Nat × Nat) × Bool) :=
  runWithQueue segments (NewEventQueue segments) fn

/-- The index pairs `(srcIdx, destIdx)` reported by `FindIntersects`. -/
def FindIntersectsPairs (segments : List Line) (fn : Cb) : List (Nat × Nat) :=
  (FindIntersectsLog segments fn).map Prod.fst

/-- `IsSimple` (mbtiles.go lines 447-454): `found` ends up `false` exactly when
the aborting callback was invoked at least once. -/
def IsSimple (segments : List Line) : Bool :=
  (FindIntersectsLog segments (fun _ _ _ => false)).isEmpty

/-- One open-set update of the outer loop: first visit of an edge inserts it,
second visit removes it (mbtiles.go lines 398-408). -/
def openStep (opens : List Nat) (x : Nat) : List Nat :=
  if x ∈ opens then opens.erase x else opens ++ [x]

/-- The open set after consuming a list of events, replaying exactly the
insert/delete logic of the scan loop. -/
def openAfter (evs : List event) : List Nat :=
  evs.foldl (fun o e => openStep o e.edge) []

/-! ## The log-level module (`src/internal/log/log.go`) -/

namespace Log

/-- `Level` constants (log.go lines 24-34): `iota - 2` gives TRACE=-2, DEBUG=-1,
INFO=0, WARN=1, ERROR=2, FATAL=3. -/
def TRACE : Int := -2

def DEBUG : Int := -1

def INFO : Int := 0

def WARN : Int := 1

def ERROR : Int := 2

def FATAL : Int := 3

/-- The package-level mutable state written by `SetLogLevel`
(log.go lines 36-46): the stored level and the five gating flags. -/
structure LogState where
  level : Int
  IsError : Bool
  IsWarn : Bool
  IsInfo : Bool
  IsDebug : Bool
  IsTrace : Bool
  deriving DecidableEq

/-- `SetLogLevel` (log.go lines 48-77): every flag is reset to false, a level
other than the six defined constants is replaced by INFO, then the
switch-with-fallthrough turns on the flags from the stored level downward in
verbosity (TRACE sets all five; DEBUG sets IsDebug..IsError; and so on; FATAL
sets none). -/
def SetLogLevel (lvl0 : Int) : LogState :=
  let lvl := if lvl0 ≠ TRACE ∧ lvl0 ≠ DEBUG ∧ lvl0 ≠ INFO ∧ lvl0 ≠ WARN ∧
      lvl0 ≠ ERROR ∧ lvl0 ≠ FATAL then INFO else lvl0
  if lvl = TRACE then ⟨lvl, true, true, true, true, true⟩
  else if lvl ≤ DEBUG then ⟨lvl, true, true, true, true, false⟩
  else if lvl ≤ INFO then ⟨lvl, true, true, true, false, false⟩
  else if lvl ≤ WARN then ⟨lvl, true, true, false, false, false⟩
  else if lvl ≤ ERROR then ⟨lvl, true, false, false, false, false⟩
  else ⟨lvl, false, false, false, false, false⟩

/-- Whether `Fatal` (log.go lines 80-82) forwards to the logger sink: there is
no flag guard in its body, so it always does. -/
def FatalEmits (_ : LogState) : Bool := true

/-- Whether `Error` (log.go lines 84-88) forwards to the logger sink. -/
def ErrorEmits (st : LogState) : Bool := st.IsError

/-- Whether `Warn` (log.go lines 90-94) forwards to the logger sink. -/
def WarnEmits (st : LogState) : Bool := st.IsWarn

/-- Whether `Info` (log.go lines 96-100) forwards to the logger sink. -/
def InfoEmits (st : LogState) : Bool := st.IsInfo

/-- Whether `Debug` (log.go lines 102-106) forwards to the logger sink. -/
def DebugEmits (st : LogState) : Bool := st.IsDebug

/-- Whether `Trace` (log.go lines 108-112) forwards to the logger sink. -/
def TraceEmits (st : LogState) : Bool := st.IsTrace

end Log

/-! ## Concrete inputs used by witnesses and counterexamples -/

/-- The always-continue callback. -/
def alwaysTrue : Cb := fun _ _ _ => true

/-- The always-abort callback (the one `IsSimple` uses). -/
def alwaysFalse : Cb := fun _ _ _ => false

/-- A pair of horizontal parallel segments (both straddle products positive
against each other's canonical line). -/
def c1seg1 : Line := ⟨⟨0, 0⟩, ⟨1, 0⟩⟩

def c1seg2 : Line := ⟨⟨0, 1⟩, ⟨1, 1⟩⟩

/-- Two disjoint collinear segments listed right-block-first, so sorting the
event queue permutes the two segments' event blocks. -/
def c6segs : List Line := [⟨⟨2, 0⟩, ⟨3, 0⟩⟩, ⟨⟨0, 0⟩, ⟨1, 0⟩⟩]

/-- The bowtie ring (0,0)→(1,1)→(1,0)→(0,1)→(0,0): edges 0 and 2 cross. -/
def bowtie : List Line :=
  [⟨⟨0, 0⟩, ⟨1, 1⟩⟩, ⟨⟨1, 1⟩, ⟨1, 0⟩⟩, ⟨⟨1, 0⟩, ⟨0, 1⟩⟩, ⟨⟨0, 1⟩, ⟨0, 0⟩⟩]

/-- The unit square ring, simple. -/
def unitSquare : List Line :=
  [⟨⟨0, 0⟩, ⟨1, 0⟩⟩, ⟨⟨1, 0⟩, ⟨1, 1⟩⟩, ⟨⟨1, 1⟩, ⟨0, 1⟩⟩, ⟨⟨0, 1⟩, ⟨0, 0⟩⟩]

/-- The invocation-log entry the scan produces for the bowtie's crossing pair
under the always-continue callback. -/
def cPair : (Nat × Nat) × Bool := ((0, 2), true)

/-- Four segments with two crossing non-adjacent pairs, (0,2) and (1,3), and
all eight event points pairwise distinct. -/
def segsD : List Line :=
  [⟨⟨0, 0⟩, ⟨2, 2⟩⟩, ⟨⟨10, 0⟩, ⟨12, 2⟩⟩, ⟨⟨0, 2⟩, ⟨2, 0⟩⟩, ⟨⟨10, 2⟩, ⟨12, 0⟩⟩]

/-- A prefix of `segsD`'s queue on which the aborting callback already fires. -/
def segsDpre : List event := (NewEventQueue segsD).take 3

/-- The rest of `segsD`'s queue after `segsDpre`. -/
def segsDpost : List event := (NewEventQueue segsD).drop 3

/-- Segments 0 and 2 share the point (1,0) but are not index-adjacent
(n = 4), so the relative order of the two tied events at (1,0) decides whether
the pair (0,2) is reported. -/
def segsT : List Line :=
  [⟨⟨0, 0⟩, ⟨1, 0⟩⟩, ⟨⟨5, 5⟩, ⟨6, 6⟩⟩, ⟨⟨1, 0⟩, ⟨2, 1⟩⟩, ⟨⟨7, 5⟩, ⟨8, 6⟩⟩]

/-- A valid sorted order of `segsT`'s events where the RIGHT event of segment 0
precedes the tied LEFT event of segment 2. -/
def segsTqA : List event :=
  [⟨0, eventType.LEFT, ⟨0, 0⟩⟩, ⟨0, eventType.RIGHT, ⟨1, 0⟩⟩,
   ⟨2, eventType.LEFT, ⟨1, 0⟩⟩, ⟨2, eventType.RIGHT, ⟨2, 1⟩⟩,
   ⟨1, eventType.LEFT, ⟨5, 5⟩⟩, ⟨1, eventType.RIGHT, ⟨6, 6⟩⟩,
   ⟨3, eventType.LEFT, ⟨7, 5⟩⟩, ⟨3, eventType.RIGHT, ⟨8, 6⟩⟩]

/-- A valid sorted order of `segsT`'s events where the tied pair at (1,0) is
broken the other way. -/
def segsTqB : List event :=
  [⟨0, eventType.LEFT, ⟨0, 0⟩⟩, ⟨2, eventType.LEFT, ⟨1, 0⟩⟩,
   ⟨0, eventType.RIGHT, ⟨1, 0⟩⟩, ⟨2, eventType.RIGHT, ⟨2, 1⟩⟩,
   ⟨1, eventType.LEFT, ⟨5, 5⟩⟩, ⟨1, eventType.RIGHT, ⟨6, 6⟩⟩,
   ⟨3, eventType.LEFT, ⟨7, 5⟩⟩, ⟨3, eventType.RIGHT, ⟨8, 6⟩⟩]

/-- Reversing the stored order of a segment's two endpoints. -/
def reverseSeg (l : Line) : Line := ⟨l.p1, l.p0⟩

/-- The sorted queue of `segsD`, written out. -/
def segsDq : List event :=
  [⟨0, eventType.LEFT, ⟨0, 0⟩⟩, ⟨2, eventType.LEFT, ⟨0, 2⟩⟩,
   ⟨2, eventType.RIGHT, ⟨2, 0⟩⟩, ⟨0, eventType.RIGHT, ⟨2, 2⟩⟩,
   ⟨1, eventType.LEFT, ⟨10, 0⟩⟩, ⟨3, eventType.LEFT, ⟨10, 2⟩⟩,
   ⟨3, eventType.RIGHT, ⟨12, 0⟩⟩, ⟨1, eventType.RIGHT, ⟨12, 2⟩⟩]

/-- A callback that ignores the lazy point closure (such as the
always-continue callback and the aborting callback of `IsSimple`). -/
def liftCb (g : Nat → Nat → Bool) : Cb := fun a b _ => g a b

/-- Distinctness of two events' points (used to say "no ties"). -/
def evPtNe (a b : event) : Prop := a.ev ≠ b.ev

instance : DecidableRel evPtNe := fun a b =>
  inferInstanceAs (Decidable (a.ev ≠ b.ev))

/-! ## Basic facts about the lexicographic comparison and the sort relation -/

theorem xyorder_swap (a b : Pt) : xyorder a b = -xyorder b a := by
  unfold xyorder
  split_ifs <;> omega

theorem xyorder_eq_zero_iff (a b : Pt) : xyorder a b = 0 ↔ a = b := by
  unfold xyorder
  split_ifs <;> simp_all [Pt.ext_iff] <;> omega

theorem xyorder_le_zero_iff (a b : Pt) :
    xyorder a b ≤ 0 ↔ a.x < b.x ∨ (a.x = b.x ∧ a.y ≤ b.y) := by
  unfold xyorder
  split_ifs <;> constructor <;> intro h <;> omega

theorem evLE_refl (a : event) : evLE a a := by
  unfold evLE xyorder
  split_ifs <;> omega

theorem evLE_total (a b : event) : evLE a b ∨ evLE b a := by
  unfold evLE
  have h := xyorder_swap a.ev b.ev
  omega

theorem evLE_trans {a b c : event} (hab : evLE a b) (hbc : evLE b c) :
    evLE a c := by
  unfold evLE at *
  rw [xyorder_le_zero_iff] at *
  omega

/-- Mutual `evLE` of events with distinct points is impossible: the points
must be equal. -/
theorem evLE_antisymm_pt {a b : event} (hab : evLE a b) (hba : evLE b a) :
    a.ev = b.ev := by
  unfold evLE at *
  rw [← xyorder_eq_zero_iff]
  have h := xyorder_swap a.ev b.ev
  omega

instance : IsTotal event evLE := ⟨evLE_total⟩

instance : IsTrans event evLE := ⟨fun _ _ _ => evLE_trans⟩

/-! ## Claim theorems: straddle test, vacuous small inputs, Complement, log -/

/-- C1: `DoesIntersect s1 s2` is true iff both straddle checks pass, i.e. the
`isLeft` signs of each segment's endpoints against the other's canonicalized
line have non-positive product, and whenever either sign product is strictly
positive the result is false. -/
theorem c1_does_intersect_straddle (s1 s2 : Line) :
    (DoesIntersect s1 s2 = true ↔
      s1.LeftRightMostAsLine.IsLeft s2.LeftRightMostAsLine.p0 *
          s1.LeftRightMostAsLine.IsLeft s2.LeftRightMostAsLine.p1 ≤ 0 ∧
        s2.LeftRightMostAsLine.IsLeft s1.LeftRightMostAsLine.p0 *
          s2.LeftRightMostAsLine.IsLeft s1.LeftRightMostAsLine.p1 ≤ 0) ∧
    ((0 < s1.LeftRightMostAsLine.IsLeft s2.LeftRightMostAsLine.p0 *
          s1.LeftRightMostAsLine.IsLeft s2.LeftRightMostAsLine.p1 ∨
      0 < s2.LeftRightMostAsLine.IsLeft s1.LeftRightMostAsLine.p0 *
          s2.LeftRightMostAsLine.IsLeft s1.LeftRightMostAsLine.p1) →
      DoesIntersect s1 s2 = false) := by
  simp only [DoesIntersect]
  split_ifs with h1 h2
  · constructor
    · simp only [Bool.false_eq_true, false_iff]
      intro hc
      exact absurd hc.1 (not_le.mpr h1)
    · intro _; rfl
  · constructor
    · simp only [Bool.false_eq_true, false_iff]
      intro hc
      exact absurd hc.2 (not_le.mpr h2)
    · intro _; rfl
  · constructor
    · simp only [true_iff]
      exact ⟨not_lt.mp h1, not_lt.mp h2⟩
    · intro hc
      rcases hc with hc | hc
      · exact absurd hc (not_lt.mpr (not_lt.mp h1))
      · exact absurd hc (not_lt.mpr (not_lt.mp h2))

/-- Witness for C1 at a concrete pair of parallel segments whose first sign
product is strictly positive. -/
theorem c1_witness : DoesIntersect c1seg1 c1seg2 = false :=
  (c1_does_intersect_straddle c1seg1 c1seg2).2 (Or.inl (by decide))

/-- C4: with fewer than 3 segments the scan is skipped: the callback is never
invoked and `IsSimple` returns true. -/
theorem c4_small_input_vacuous (segments : List Line)
    (h : segments.length < 3) :
    (∀ fn : Cb, FindIntersectsLog segments fn = []) ∧
      IsSimple segments = true := by
  refine ⟨fun fn => ?_, ?_⟩
  · unfold FindIntersectsLog runWithQueue
    simp [h]
  · unfold IsSimple FindIntersectsLog runWithQueue
    simp [h]

/-- Witness for C4 at a concrete one-segment input. -/
theorem c4_witness :
    IsSimple [defaultLine] = true ∧
      FindIntersectsLog [defaultLine] (fun _ _ _ => true) = [] :=
  ⟨(c4_small_input_vacuous [defaultLine] (by decide)).2,
   (c4_small_input_vacuous [defaultLine] (by decide)).1 (fun _ _ _ => true)⟩

/-- C6 (code bug): `Complement` applies the `2*edge` / `2*edge+1` index
arithmetic — valid only for the pre-sort `edata` layout — to the sorted slice
`eq.eq`.  At this input the sort swaps the two segments' event blocks, so for
the first queue event (an event of segment 1) `Complement` returns an event of
segment 0 instead of the paired event of segment 1. -/
theorem c6_complement_wrong_segment :
    ((NewEventQueue c6segs).getD 0 dummyEvent).edge = 1 ∧
      ((NewEventQueue c6segs).getD 0 dummyEvent).edgeType = eventType.LEFT ∧
      (Complement (NewEventQueue c6segs)
        ((NewEventQueue c6segs).getD 0 dummyEvent)).edge = 0 := by
  decide

/-- C10: after `SetLogLevel lvl` the gating flags form a monotone chain, any
level other than the six defined constants is treated as INFO, and `Fatal`
forwards to the sink unconditionally. -/
theorem c10_log_level_gating (lvl : Int) :
    ((Log.SetLogLevel lvl).IsTrace = true → (Log.SetLogLevel lvl).IsDebug = true) ∧
    ((Log.SetLogLevel lvl).IsDebug = true → (Log.SetLogLevel lvl).IsInfo = true) ∧
    ((Log.SetLogLevel lvl).IsInfo = true → (Log.SetLogLevel lvl).IsWarn = true) ∧
    ((Log.SetLogLevel lvl).IsWarn = true → (Log.SetLogLevel lvl).IsError = true) ∧
    (lvl ≠ Log.TRACE ∧ lvl ≠ Log.DEBUG ∧ lvl ≠ Log.INFO ∧ lvl ≠ Log.WARN ∧
        lvl ≠ Log.ERROR ∧ lvl ≠ Log.FATAL →
      Log.SetLogLevel lvl = Log.SetLogLevel Log.INFO) ∧
    Log.FatalEmits (Log.SetLogLevel lvl) = true := by
  by_cases hC : lvl ≠ Log.TRACE ∧ lvl ≠ Log.DEBUG ∧ lvl ≠ Log.INFO ∧
      lvl ≠ Log.WARN ∧ lvl ≠ Log.ERROR ∧ lvl ≠ Log.FATAL
  · have hnorm : Log.SetLogLevel lvl = Log.SetLogLevel Log.INFO := by
      simp only [Log.SetLogLevel]
      rw [if_pos hC]
      decide
    rw [hnorm]
    exact ⟨by decide, by decide, by decide, by decide, fun _ => rfl, by decide⟩
  · have h6 : lvl = Log.TRACE ∨ lvl = Log.DEBUG ∨ lvl = Log.INFO ∨
        lvl = Log.WARN ∨ lvl = Log.ERROR ∨ lvl = Log.FATAL := by
      by_contra hno
      push_neg at hno
      exact hC ⟨hno.1, hno.2.1, hno.2.2.1, hno.2.2.2.1, hno.2.2.2.2.1,
        hno.2.2.2.2.2⟩
    rcases h6 with h | h | h | h | h | h <;> subst h <;> decide

/-- Witness for C10: the chain at TRACE and the INFO-normalization at the
undefined level 7. -/
theorem c10_witness :
    (Log.SetLogLevel Log.TRACE).IsDebug = true ∧
      Log.SetLogLevel 7 = Log.SetLogLevel Log.INFO ∧
      Log.FatalEmits (Log.SetLogLevel 7) = true :=
  ⟨(c10_log_level_gating Log.TRACE).1 (by decide),
   (c10_log_level_gating 7).2.2.2.2.1 (by decide),
   (c10_log_level_gating 7).2.2.2.2.2⟩

/-! ## Provenance of reported pairs (claims C2 and C7) -/

theorem sortPair_eq (a b : Nat) :
    (if a > b then (b, a) else (a, b)) = (min a b, max a b) := by
  rcases le_or_lt a b with h | h
  · rw [if_neg (not_lt.mpr h), min_eq_left h, max_eq_right h]
  · rw [if_pos h, min_eq_right h.le, max_eq_left h.le]

/-- Every entry of the inner loop's invocation log arises from an open segment
`s` that passed the adjacency-exclusion check and the straddle test, with the
pair reported as `(min, max)` of the closing edge and `s`. -/
theorem innerLoop_mem (segments : List Line) (ns : Nat) (evEdge : Nat)
    (fn : Cb) (l : List Nat) :
    ∀ p ∈ (innerLoop segments ns evEdge fn l).1,
      ∃ s ∈ l,
        ¬(evEdge = s ∨ (s + 1) % ns = evEdge ∨ (evEdge + 1) % ns = s) ∧
          p.1 = (min evEdge s, max evEdge s) ∧
          DoesIntersect (segments.getD evEdge defaultLine)
            (segments.getD s defaultLine) = true := by
  induction l with
  | nil => intro p hp; simp [innerLoop] at hp
  | cons s rest ih =>
    intro p hp
    simp only [innerLoop] at hp
    by_cases hskip : evEdge = s ∨ (s + 1) % ns = evEdge ∨ (evEdge + 1) % ns = s
    · rw [if_pos hskip] at hp
      obtain ⟨t, ht, h⟩ := ih p hp
      exact ⟨t, List.mem_cons_of_mem _ ht, h⟩
    · rw [if_neg hskip] at hp
      by_cases hDI : DoesIntersect (segments.getD evEdge defaultLine)
          (segments.getD s defaultLine) = true
      · rw [if_pos hDI] at hp
        by_cases hfn : fn (if evEdge > s then (s, evEdge) else (evEdge, s)).1
            (if evEdge > s then (s, evEdge) else (evEdge, s)).2
            (fun _ => (Intersect (segments.getD evEdge defaultLine)
              (segments.getD s defaultLine)).1) = true
        · rw [if_pos hfn] at hp
          rcases List.mem_cons.mp hp with hp | hp
          · refine ⟨s, List.mem_cons_self _ _, hskip, ?_, hDI⟩
            rw [hp]
            exact sortPair_eq evEdge s
          · obtain ⟨t, ht, h⟩ := ih p hp
            exact ⟨t, List.mem_cons_of_mem _ ht, h⟩
        · rw [if_neg hfn] at hp
          rcases List.mem_singleton.mp hp with hp
          refine ⟨s, List.mem_cons_self _ _, hskip, ?_, hDI⟩
          rw [hp]
          exact sortPair_eq evEdge s
      · rw [if_neg hDI] at hp
        obtain ⟨t, ht, h⟩ := ih p hp
        exact ⟨t, List.mem_cons_of_mem _ ht, h⟩

/-- Every entry of the scan's invocation log arises from some pair of distinct
segment indices that passed the adjacency-exclusion check and the straddle
test, reported normalized as `(min, max)`. -/
theorem scanEvents_mem (segments : List Line) (ns : Nat) (fn : Cb) :
    ∀ (evs : List event) (opens : List Nat),
      ∀ p ∈ scanEvents segments ns fn evs opens,
        ∃ a b, ¬(a = b ∨ (b + 1) % ns = a ∨ (a + 1) % ns = b) ∧
          p.1 = (min a b, max a b) ∧
          DoesIntersect (segments.getD a defaultLine)
            (segments.getD b defaultLine) = true := by
  intro evs
  induction evs with
  | nil => intro opens p hp; simp [scanEvents] at hp
  | cons e rest ih =>
    intro opens p hp
    simp only [scanEvents] at hp
    by_cases hmem : e.edge ∈ opens
    · rw [if_pos hmem] at hp
      by_cases hemp : (opens.erase e.edge).isEmpty = true
      · rw [if_pos hemp] at hp
        exact ih _ p hp
      · rw [if_neg hemp] at hp
        by_cases hcont :
            (innerLoop segments ns e.edge fn (opens.erase e.edge)).2 = true
        · rw [if_pos hcont] at hp
          rcases List.mem_append.mp hp with hp | hp
          · obtain ⟨s, _, hskip, hpair, hDI⟩ :=
              innerLoop_mem segments ns e.edge fn _ p hp
            exact ⟨e.edge, s, hskip, hpair, hDI⟩
          · exact ih _ p hp
        · rw [if_neg hcont] at hp
          obtain ⟨s, _, hskip, hpair, hDI⟩ :=
            innerLoop_mem segments ns e.edge fn _ p hp
          exact ⟨e.edge, s, hskip, hpair, hDI⟩
    · rw [if_neg hmem] at hp
      exact ih _ p hp

/-- The straddle test is symmetric in its two segments: the two sign checks
swap places. -/
theorem doesIntersect_comm (s1 s2 : Line) :
    DoesIntersect s1 s2 = DoesIntersect s2 s1 := by
  simp only [DoesIntersect]
  split_ifs <;> rfl

/-- C2: the callback is never invoked on an index pair that is equal or
ring-adjacent (successor computed as `(index+1) mod n`), whatever the
geometry. -/
theorem c2_adjacency_exclusion (segments : List Line) (fn : Cb)
    (p : (Nat × Nat) × Bool) (hp : p ∈ FindIntersectsLog segments fn) :
    ¬(p.1.1 = p.1.2 ∨ p.1.2 = (p.1.1 + 1) % segments.length ∨
      p.1.1 = (p.1.2 + 1) % segments.length) := by
  unfold FindIntersectsLog runWithQueue at hp
  by_cases hlen : segments.length < 3
  · rw [if_pos hlen] at hp
    simp at hp
  · rw [if_neg hlen] at hp
    obtain ⟨a, b, hskip, hpair, _⟩ :=
      scanEvents_mem segments segments.length fn _ [] p hp
    have h1 : p.1.1 = min a b := by rw [hpair]
    have h2 : p.1.2 = max a b := by rw [hpair]
    intro hcon
    apply hskip
    rcases le_total a b with hab | hab
    · rw [h1, h2, min_eq_left hab, max_eq_right hab] at hcon
      rcases hcon with h | h | h
      · exact Or.inl h
      · exact Or.inr (Or.inr h.symm)
      · exact Or.inr (Or.inl h.symm)
    · rw [h1, h2, min_eq_right hab, max_eq_left hab] at hcon
      rcases hcon with h | h | h
      · exact Or.inl h.symm
      · exact Or.inr (Or.inl h.symm)
      · exact Or.inr (Or.inr h.symm)

/-- Witness for C2 at the bowtie's reported crossing pair. -/
theorem c2_witness :
    ¬(cPair.1.1 = cPair.1.2 ∨ cPair.1.2 = (cPair.1.1 + 1) % bowtie.length ∨
      cPair.1.1 = (cPair.1.2 + 1) % bowtie.length) :=
  c2_adjacency_exclusion bowtie alwaysTrue cPair (by decide)

/-- C7: every invocation passes `srcIdx < destIdx`, the (min, max)
normalization of the two segment indices whose segments pass the straddle
test. -/
theorem c7_reported_pairs_sorted (segments : List Line) (fn : Cb)
    (p : (Nat × Nat) × Bool) (hp : p ∈ FindIntersectsLog segments fn) :
    p.1.1 < p.1.2 ∧
      DoesIntersect (segments.getD p.1.1 defaultLine)
        (segments.getD p.1.2 defaultLine) = true := by
  unfold FindIntersectsLog runWithQueue at hp
  by_cases hlen : segments.length < 3
  · rw [if_pos hlen] at hp
    simp at hp
  · rw [if_neg hlen] at hp
    obtain ⟨a, b, hskip, hpair, hDI⟩ :=
      scanEvents_mem segments segments.length fn _ [] p hp
    have hne : a ≠ b := fun h => hskip (Or.inl h)
    have h1 : p.1.1 = min a b := by rw [hpair]
    have h2 : p.1.2 = max a b := by rw [hpair]
    constructor
    · rw [h1, h2]
      exact min_lt_max.mpr hne
    · rcases le_total a b with hab | hab
      · rw [h1, h2, min_eq_left hab, max_eq_right hab]
        exact hDI
      · rw [h1, h2, min_eq_right hab, max_eq_left hab]
        rw [doesIntersect_comm]
        exact hDI

/-- Witness for C7 at the bowtie's reported crossing pair. -/
theorem c7_witness :
    cPair.1.1 < cPair.1.2 ∧
      DoesIntersect (bowtie.getD cPair.1.1 defaultLine)
        (bowtie.getD cPair.1.2 defaultLine) = true :=
  c7_reported_pairs_sorted bowtie alwaysTrue cPair (by decide)

/-! ## Early abort (claim C3) -/

/-- If the inner loop reports "continue", every logged invocation returned
true. -/
theorem innerLoop_all_true (segments : List Line) (ns : Nat) (evEdge : Nat)
    (fn : Cb) (l : List Nat) :
    (innerLoop segments ns evEdge fn l).2 = true →
      ∀ p ∈ (innerLoop segments ns evEdge fn l).1, p.2 = true := by
  induction l with
  | nil => intro _ p hp; simp [innerLoop] at hp
  | cons s rest ih =>
    intro h p hp
    simp only [innerLoop] at h hp
    by_cases hskip : evEdge = s ∨ (s + 1) % ns = evEdge ∨ (evEdge + 1) % ns = s
    · rw [if_pos hskip] at h hp
      exact ih h p hp
    · rw [if_neg hskip] at h hp
      by_cases hDI : DoesIntersect (segments.getD evEdge defaultLine)
          (segments.getD s defaultLine) = true
      · rw [if_pos hDI] at h hp
        by_cases hfn : fn (if evEdge > s then (s, evEdge) else (evEdge, s)).1
            (if evEdge > s then (s, evEdge) else (evEdge, s)).2
            (fun _ => (Intersect (segments.getD evEdge defaultLine)
              (segments.getD s defaultLine)).1) = true
        · rw [if_pos hfn] at h hp
          rcases List.mem_cons.mp hp with hp | hp
          · rw [hp]
          · exact ih h p hp
        · rw [if_neg hfn] at h
          simp at h
      · rw [if_neg hDI] at h hp
        exact ih h p hp

/-- All invocations of the inner loop except possibly the last returned
true. -/
theorem innerLoop_dropLast (segments : List Line) (ns : Nat) (evEdge : Nat)
    (fn : Cb) (l : List Nat) :
    ∀ p ∈ (innerLoop segments ns evEdge fn l).1.dropLast, p.2 = true := by
  induction l with
  | nil => intro p hp; simp [innerLoop] at hp
  | cons s rest ih =>
    intro p hp
    simp only [innerLoop] at hp
    by_cases hskip : evEdge = s ∨ (s + 1) % ns = evEdge ∨ (evEdge + 1) % ns = s
    · rw [if_pos hskip] at hp
      exact ih p hp
    · rw [if_neg hskip] at hp
      by_cases hDI : DoesIntersect (segments.getD evEdge defaultLine)
          (segments.getD s defaultLine) = true
      · rw [if_pos hDI] at hp
        by_cases hfn : fn (if evEdge > s then (s, evEdge) else (evEdge, s)).1
            (if evEdge > s then (s, evEdge) else (evEdge, s)).2
            (fun _ => (Intersect (segments.getD evEdge defaultLine)
              (segments.getD s defaultLine)).1) = true
        · rw [if_pos hfn] at hp
          rcases hnil : (innerLoop segments ns evEdge fn rest).1 with _ | ⟨q, m⟩
          · rw [hnil] at hp
            simp at hp
          · rw [hnil, List.dropLast_cons_of_ne_nil (by simp)] at hp
            rcases List.mem_cons.mp hp with hp | hp
            · rw [hp]
            · rw [← hnil] at hp
              exact ih p hp
        · rw [if_neg hfn] at hp
          simp at hp
      · rw [if_neg hDI] at hp
        exact ih p hp

/-- If some logged invocation of the inner loop returned false, the loop
reports "abort". -/
theorem innerLoop_false_abort (segments : List Line) (ns : Nat) (evEdge : Nat)
    (fn : Cb) (l : List Nat)
    (h : ∃ p ∈ (innerLoop segments ns evEdge fn l).1, p.2 = false) :
    (innerLoop segments ns evEdge fn l).2 = false := by
  obtain ⟨p, hp, hfalse⟩ := h
  cases hc : (innerLoop segments ns evEdge fn l).2 with
  | false => rfl
  | true =>
    have := innerLoop_all_true segments ns evEdge fn l hc p hp
    rw [this] at hfalse
    exact absurd hfalse (by simp)

/-- All invocations of the scan except possibly the last returned true; that
is, after a false-returning invocation there are no further invocations. -/
theorem scanEvents_dropLast (segments : List Line) (ns : Nat) (fn : Cb) :
    ∀ (evs : List event) (opens : List Nat),
      ∀ p ∈ (scanEvents segments ns fn evs opens).dropLast, p.2 = true := by
  intro evs
  induction evs with
  | nil => intro opens p hp; simp [scanEvents] at hp
  | cons e rest ih =>
    intro opens p hp
    simp only [scanEvents] at hp
    by_cases hmem : e.edge ∈ opens
    · rw [if_pos hmem] at hp
      by_cases hemp : (opens.erase e.edge).isEmpty = true
      · rw [if_pos hemp] at hp
        exact ih _ p hp
      · rw [if_neg hemp] at hp
        by_cases hcont :
            (innerLoop segments ns e.edge fn (opens.erase e.edge)).2 = true
        · rw [if_pos hcont] at hp
          rcases hnil : scanEvents segments ns fn rest (opens.erase e.edge)
            with _ | ⟨q, m⟩
          · rw [hnil, List.append_nil] at hp
            exact innerLoop_all_true segments ns e.edge fn _ hcont p
              (List.mem_of_mem_dropLast hp)
          · rw [hnil, List.dropLast_append_cons] at hp
            rcases List.mem_append.mp hp with hp | hp
            · exact innerLoop_all_true segments ns e.edge fn _ hcont p hp
            · rw [← hnil] at hp
              exact ih _ p hp
        · rw [if_neg hcont] at hp
          exact innerLoop_dropLast segments ns e.edge fn _ p hp
    · rw [if_neg hmem] at hp
      exact ih _ p hp

/-- Once an invocation has returned false, the scan consumes no further
events: appending more events after the abort changes nothing. -/
theorem scanEvents_abort_stops (segments : List Line) (ns : Nat) (fn : Cb) :
    ∀ (evs : List event) (opens : List Nat),
      (∃ p ∈ scanEvents segments ns fn evs opens, p.2 = false) →
      ∀ extra : List event,
        scanEvents segments ns fn (evs ++ extra) opens =
          scanEvents segments ns fn evs opens := by
  intro evs
  induction evs with
  | nil =>
    intro opens h extra
    simp [scanEvents] at h
  | cons e rest ih =>
    intro opens h extra
    rw [List.cons_append]
    by_cases hmem : e.edge ∈ opens
    · by_cases hemp : (opens.erase e.edge).isEmpty = true
      · have hh : ∃ p ∈ scanEvents segments ns fn rest (opens.erase e.edge),
            p.2 = false := by
          simpa only [scanEvents, if_pos hmem, if_pos hemp] using h
        simp only [scanEvents, if_pos hmem, if_pos hemp]
        exact ih _ hh extra
      · by_cases hcont :
            (innerLoop segments ns e.edge fn (opens.erase e.edge)).2 = true
        · have hh : ∃ p ∈ scanEvents segments ns fn rest (opens.erase e.edge),
              p.2 = false := by
            obtain ⟨p, hp, hfalse⟩ := by
              simpa only [scanEvents, if_pos hmem, if_neg hemp, if_pos hcont]
                using h
            rcases List.mem_append.mp hp with hp | hp
            · have := innerLoop_all_true segments ns e.edge fn _ hcont p hp
              rw [this] at hfalse
              exact absurd hfalse (by simp)
            · exact ⟨p, hp, hfalse⟩
          simp only [scanEvents, if_pos hmem, if_neg hemp, if_pos hcont]
          rw [ih _ hh extra]
        · simp only [scanEvents, if_pos hmem, if_neg hemp, if_neg hcont]
    · have hh : ∃ p ∈ scanEvents segments ns fn rest (opens ++ [e.edge]),
          p.2 = false := by
        simpa only [scanEvents, if_neg hmem] using h
      simp only [scanEvents, if_neg hmem]
      exact ih _ hh extra

/-- C3: if some invocation of the callback returns false, the scan makes no
further invocations (every log entry but the last returned true) and
processes no further events (events after the abort point are ignored). -/
theorem c3_early_abort (segments : List Line) (fn : Cb)
    (evs extra : List event) (opens : List Nat) :
    (∀ p ∈ (FindIntersectsLog segments fn).dropLast, p.2 = true) ∧
      ((∃ p ∈ scanEvents segments segments.length fn evs opens, p.2 = false) →
        scanEvents segments segments.length fn (evs ++ extra) opens =
          scanEvents segments segments.length fn evs opens) := by
  constructor
  · intro p hp
    unfold FindIntersectsLog runWithQueue at hp
    by_cases hlen : segments.length < 3
    · rw [if_pos hlen] at hp
      simp at hp
    · rw [if_neg hlen] at hp
      exact scanEvents_dropLast segments segments.length fn _ [] p hp
  · intro h
    exact scanEvents_abort_stops segments segments.length fn evs opens h extra

/-- Witness for C3: an input with two reported crossings under the
always-continue callback (the non-final invocation returned true), and the
concrete abort of the always-false callback on a queue prefix, after which
appending the remaining events changes nothing. -/
theorem c3_witness :
    cPair.2 = true ∧
      scanEvents segsD segsD.length alwaysFalse (segsDpre ++ segsDpost) [] =
        scanEvents segsD segsD.length alwaysFalse segsDpre [] :=
  ⟨(c3_early_abort segsD alwaysTrue [] [] []).1 cPair (by decide),
   (c3_early_abort segsD alwaysFalse segsDpre segsDpost []).2 (by decide)⟩

/-! ## The open-set invariant (claim C5) -/

/-- The scan's recursion threads exactly `openStep` as its open set, in every
branch that keeps scanning. -/
theorem scanEvents_cons_openStep (segments : List Line) (ns : Nat) (fn : Cb)
    (e : event) (rest : List event) (opens : List Nat) :
    scanEvents segments ns fn (e :: rest) opens =
      if e.edge ∈ opens then
        (if (opens.erase e.edge).isEmpty then
          scanEvents segments ns fn rest (openStep opens e.edge)
        else
          (if (innerLoop segments ns e.edge fn (opens.erase e.edge)).2 then
            (innerLoop segments ns e.edge fn (opens.erase e.edge)).1 ++
              scanEvents segments ns fn rest (openStep opens e.edge)
          else (innerLoop segments ns e.edge fn (opens.erase e.edge)).1))
      else scanEvents segments ns fn rest (openStep opens e.edge) := by
  simp only [scanEvents, openStep]
  by_cases hmem : e.edge ∈ opens <;> simp [hmem]

theorem openStep_nodup {opens : List Nat} (h : opens.Nodup) (x : Nat) :
    (openStep opens x).Nodup := by
  unfold openStep
  split_ifs with hx
  · exact h.erase x
  · simp [List.nodup_append, h, hx]

/-- Parity invariant of the open-set fold: an index is open iff it has been
seen an odd number of times (relative to its initial membership). -/
theorem openFold_mem (evs : List event) :
    ∀ opens : List Nat, opens.Nodup →
      (evs.foldl (fun o e => openStep o e.edge) opens).Nodup ∧
      ∀ i : Nat,
        (i ∈ evs.foldl (fun o e => openStep o e.edge) opens ↔
          if i ∈ opens then evs.countP (fun e => e.edge == i) % 2 = 0
          else evs.countP (fun e => e.edge == i) % 2 = 1) := by
  induction evs with
  | nil =>
    intro opens h
    refine ⟨h, fun i => ?_⟩
    by_cases hi : i ∈ opens <;> simp [hi]
  | cons e rest ih =>
    intro opens h
    rw [List.foldl_cons]
    obtain ⟨hnd, hmem⟩ := ih (openStep opens e.edge) (openStep_nodup h e.edge)
    refine ⟨hnd, fun i => ?_⟩
    rw [hmem i]
    by_cases hi : e.edge = i
    · subst hi
      by_cases hx : e.edge ∈ opens
      · have hstep : e.edge ∉ openStep opens e.edge := by
          unfold openStep
          rw [if_pos hx]
          intro hc
          exact ((List.Nodup.mem_erase_iff h).mp hc).1 rfl
        rw [if_neg hstep, if_pos hx, List.countP_cons]
        simp only [beq_self_eq_true, if_pos]
        omega
      · have hstep : e.edge ∈ openStep opens e.edge := by
          unfold openStep
          rw [if_neg hx]
          simp
        rw [if_pos hstep, if_neg hx, List.countP_cons]
        simp only [beq_self_eq_true, if_pos]
        omega
    · have hcount : (e :: rest).countP (fun ev => ev.edge == i) =
          rest.countP (fun ev => ev.edge == i) := by
        rw [List.countP_cons]
        simp [hi]
      have hstep : i ∈ openStep opens e.edge ↔ i ∈ opens := by
        unfold openStep
        split_ifs with hx
        · rw [List.Nodup.mem_erase_iff h]
          constructor
          · exact fun hc => hc.2
          · exact fun hc => ⟨fun hc2 => hi hc2.symm, hc⟩
        · simp only [List.mem_append, List.mem_singleton]
          constructor
          · intro hc
            rcases hc with hc | hc
            · exact hc
            · exact absurd hc.symm hi
          · exact Or.inl
      rw [hcount]
      by_cases hio : i ∈ opens
      · rw [if_pos hio, if_pos (hstep.mpr hio)]
      · rw [if_neg hio, if_neg (fun hc => hio (hstep.mp hc))]

/-- Each segment index `i < n` owns exactly two events in the raw event
storage; other indices own none. -/
theorem countP_edataFrom (segments : List Line) :
    ∀ n i : Nat, (edataFrom n segments).countP (fun e => e.edge == i) =
      if n ≤ i ∧ i < n + segments.length then 2 else 0 := by
  induction segments with
  | nil =>
    intro n i
    simp [edataFrom]
    rw [if_neg (by omega)]
  | cons s rest ih =>
    intro n i
    simp only [edataFrom, List.countP_append]
    rw [ih (n + 1) i]
    have hseg : (segEvents n s).countP (fun e => e.edge == i) =
        if n = i then 2 else 0 := by
      by_cases hni : n = i
      · subst hni
        rw [if_pos rfl]
        unfold segEvents
        split_ifs <;> simp [List.countP_cons]
      · rw [if_neg hni]
        unfold segEvents
        split_ifs <;> simp [List.countP_cons, hni]
    rw [hseg]
    simp only [List.length_cons]
    split_ifs <;> omega

/-- C5: while draining the queue of `segments`, after any `k` consumed events
a segment index is in the open set iff exactly one of its two events has been
consumed so far. -/
theorem c5_open_set_invariant (segments : List Line) (k i : Nat) :
    i ∈ openAfter ((NewEventQueue segments).take k) ↔
      ((NewEventQueue segments).take k).countP (fun e => e.edge == i) = 1 := by
  have hpar :=
    (openFold_mem ((NewEventQueue segments).take k) [] List.nodup_nil).2 i
  unfold openAfter
  rw [hpar, if_neg (List.not_mem_nil i)]
  have hle : ((NewEventQueue segments).take k).countP
      (fun e => e.edge == i) ≤ 2 := by
    calc ((NewEventQueue segments).take k).countP (fun e => e.edge == i)
        ≤ (NewEventQueue segments).countP (fun e => e.edge == i) :=
          (List.take_sublist _ _).countP_le _
      _ = (edata segments).countP (fun e => e.edge == i) :=
          (List.perm_insertionSort evLE _).countP_eq _
      _ ≤ 2 := by
          rw [edata, countP_edataFrom]
          split_ifs <;> omega
  omega

/-! ## Tie order of the sort and determinism of the pair set (claim C9) -/

/-- C9 counterexample: for the segments `segsT`, both `segsTqA` and `segsTqB`
are legal outcomes of the event sort (permutations of the raw events, sorted
under the `Less` relation), differing only in the order of the two tied events
at the shared point (1,0); run on one order the scan reports the pair set
{(0,2)}, on the other it reports nothing. -/
theorem c9_counterexample :
    ValidQueue segsT segsTqA ∧ ValidQueue segsT segsTqB ∧
      ((runWithQueue segsT segsTqA alwaysTrue).map Prod.fst).toFinset ≠
        ((runWithQueue segsT segsTqB alwaysTrue).map Prod.fst).toFinset := by
  refine ⟨⟨?_, ?_⟩, ⟨?_, ?_⟩, ?_⟩ <;> decide

/-- A permutation of a list that is sorted for the (total, transitive) queue
relation is unique as soon as the relation is antisymmetric on the list's
elements. -/
theorem eq_of_perm_of_sorted_on (l1 : List event) :
    ∀ l2 : List event, l1.Perm l2 → l1.Sorted evLE → l2.Sorted evLE →
      (∀ a ∈ l1, ∀ b ∈ l1, evLE a b → evLE b a → a = b) → l1 = l2 := by
  induction l1 with
  | nil =>
    intro l2 hperm _ _ _
    exact hperm.nil_eq
  | cons a t ih =>
    intro l2 hperm hs1 hs2 hanti
    cases l2 with
    | nil =>
      have := hperm.eq_nil
      simp at this
    | cons b t2 =>
      have hbmem : b ∈ a :: t := hperm.mem_iff.mpr (List.mem_cons_self b t2)
      have hab : evLE a b := by
        rcases List.mem_cons.mp hbmem with hb | hb
        · exact hb ▸ evLE_refl b
        · exact (List.sorted_cons.mp hs1).1 b hb
      have hba : evLE b a := by
        have hamem : a ∈ b :: t2 := hperm.mem_iff.mp (List.mem_cons_self a t)
        rcases List.mem_cons.mp hamem with ha | ha
        · exact ha ▸ evLE_refl a
        · exact (List.sorted_cons.mp hs2).1 a ha
      have hEq : a = b := hanti a (List.mem_cons_self a t) b hbmem hab hba
      subst hEq
      have ht : t.Perm t2 := hperm.cons_inv
      rw [ih t2 ht (List.sorted_cons.mp hs1).2 (List.sorted_cons.mp hs2).2
        (fun x hx y hy hxy hyx =>
          hanti x (List.mem_cons_of_mem _ hx) y (List.mem_cons_of_mem _ hy)
            hxy hyx)]

/-- C9 (amended): when the 2n event points are pairwise distinct — i.e. the
sort has no ties to break — every legal sorted queue is the same list, so the
reported pairs are identical across any two runs, for any callback. -/
theorem c9_no_ties_deterministic (segments : List Line)
    (q1 q2 : List event) (fn : Cb)
    (hd : List.Pairwise evPtNe (edata segments))
    (h1 : ValidQueue segments q1) (h2 : ValidQueue segments q2) :
    (runWithQueue segments q1 fn).map Prod.fst =
      (runWithQueue segments q2 fn).map Prod.fst := by
  have hsymm : Symmetric evPtNe := fun x y h he => h he.symm
  have hq : q1 = q2 := by
    apply eq_of_perm_of_sorted_on q1 q2 (h1.1.symm.trans h2.1) h1.2 h2.2
    intro a ha b hb hab hba
    have hpt : a.ev = b.ev := evLE_antisymm_pt hab hba
    have ha2 : a ∈ edata segments := h1.1.mem_iff.mpr ha
    have hb2 : b ∈ edata segments := h1.1.mem_iff.mpr hb
    by_contra hne
    exact (hd.forall hsymm ha2 hb2 hne) hpt
  rw [hq]

/-- Witness for the amended C9 at `segsD` (all eight event points distinct):
the canonical queue and the explicitly written sorted queue are both valid
and yield the same reported pairs. -/
theorem c9_witness :
    (runWithQueue segsD (NewEventQueue segsD) alwaysTrue).map Prod.fst =
      (runWithQueue segsD segsDq alwaysTrue).map Prod.fst :=
  c9_no_ties_deterministic segsD (NewEventQueue segsD) segsDq alwaysTrue
    (by decide) ⟨by decide, by decide⟩ ⟨by decide, by decide⟩

/-! ## Endpoint reversal and the sort contract (claim C8) -/

/-- Canonicalizing a segment is invariant under reversing its endpoints. -/
theorem LRM_reverseSeg (l : Line) :
    (reverseSeg l).LeftRightMostAsLine = l.LeftRightMostAsLine := by
  obtain ⟨p0, p1⟩ := l
  unfold reverseSeg Line.LeftRightMostAsLine
  dsimp only
  have hsw := xyorder_swap p0 p1
  rcases lt_trichotomy (xyorder p0 p1) 0 with h | h | h
  · rw [if_neg (by omega), if_pos (by omega)]
  · have hpp : p0 = p1 := (xyorder_eq_zero_iff _ _).mp h
    rw [if_pos (by omega), if_pos (by omega), hpp]
  · rw [if_pos (by omega), if_neg (by omega)]

theorem doesIntersect_reverseSeg_left (a b : Line) :
    DoesIntersect (reverseSeg a) b = DoesIntersect a b := by
  simp only [DoesIntersect, LRM_reverseSeg]

theorem doesIntersect_reverseSeg_right (a b : Line) :
    DoesIntersect a (reverseSeg b) = DoesIntersect a b := by
  simp only [DoesIntersect, LRM_reverseSeg]

theorem getD_set_eq_ite (l : List Line) :
    ∀ (i c : Nat) (x : Line),
      (l.set i x).getD c defaultLine =
        if c = i ∧ i < l.length then x else l.getD c defaultLine := by
  induction l with
  | nil =>
    intro i c x
    rw [if_neg (by simp)]
    rfl
  | cons s rest ih =>
    intro i c x
    cases i with
    | zero =>
      cases c with
      | zero => rw [if_pos ⟨rfl, by simp⟩]; rfl
      | succ m => rw [if_neg (by simp)]; rfl
    | succ j =>
      cases c with
      | zero => rw [if_neg (by simp)]; rfl
      | succ m =>
        simp only [List.set_cons_succ, List.getD_cons_succ, List.length_cons]
        rw [ih j m x]
        split_ifs with h1 h2 h2 <;> first | rfl | omega

/-- The straddle test between any two indexed segments is unchanged when
segment `i`'s endpoints are reversed. -/
theorem doesIntersect_getD_set (segments : List Line) (i : Nat) (a b : Nat) :
    DoesIntersect
        ((segments.set i (reverseSeg (segments.getD i defaultLine))).getD a
          defaultLine)
        ((segments.set i (reverseSeg (segments.getD i defaultLine))).getD b
          defaultLine) =
      DoesIntersect (segments.getD a defaultLine)
        (segments.getD b defaultLine) := by
  rw [getD_set_eq_ite, getD_set_eq_ite]
  split_ifs with ha hb hb
  · rw [doesIntersect_reverseSeg_left, doesIntersect_reverseSeg_right,
      ha.1, hb.1]
  · rw [doesIntersect_reverseSeg_left, ha.1]
  · rw [doesIntersect_reverseSeg_right, hb.1]
  · rfl

/-- The two raw events of a segment are either unchanged by endpoint reversal
(degenerate segment) or swapped in place, with the LEFT event strictly below
the RIGHT event in the sort relation. -/
theorem segEvents_reverseSeg (i : Nat) (s : Line) :
    segEvents i (reverseSeg s) = segEvents i s ∨
      ∃ a b, evLE a b ∧ ¬evLE b a ∧
        ((segEvents i s = [a, b] ∧ segEvents i (reverseSeg s) = [b, a]) ∨
          (segEvents i s = [b, a] ∧ segEvents i (reverseSeg s) = [a, b])) := by
  obtain ⟨p0, p1⟩ := s
  unfold reverseSeg segEvents
  dsimp only
  have hsw := xyorder_swap p0 p1
  rcases lt_trichotomy (xyorder p0 p1) 0 with h | h | h
  · right
    refine ⟨⟨i, eventType.LEFT, p0⟩, ⟨i, eventType.RIGHT, p1⟩, ?_, ?_,
      Or.inl ⟨?_, ?_⟩⟩
    · unfold evLE
      dsimp only
      omega
    · unfold evLE
      dsimp only
      omega
    · rw [if_pos h]
    · rw [if_neg (by omega)]
  · have hpp : p0 = p1 := (xyorder_eq_zero_iff _ _).mp h
    left
    rw [if_neg (by omega), if_neg (by omega), hpp]
  · right
    refine ⟨⟨i, eventType.LEFT, p1⟩, ⟨i, eventType.RIGHT, p0⟩, ?_, ?_,
      Or.inr ⟨?_, ?_⟩⟩
    · unfold evLE
      dsimp only
      omega
    · unfold evLE
      dsimp only
      omega
    · rw [if_neg (by omega)]
    · rw [if_pos (by omega)]

/-- Reversing a segment's endpoints permutes the raw event storage: the
segment's two events trade places, everything else is untouched. -/
theorem edata_set_reverseSeg_perm (segments : List Line) :
    ∀ (n i : Nat),
      (edataFrom n
          (segments.set i (reverseSeg (segments.getD i defaultLine)))).Perm
        (edataFrom n segments) := by
  induction segments with
  | nil => intro n i; exact List.Perm.refl _
  | cons s rest ih =>
    intro n i
    cases i with
    | zero =>
      show (edataFrom n (reverseSeg s :: rest)).Perm _
      simp only [edataFrom]
      rcases segEvents_reverseSeg n s with heq | ⟨a, b, hab, hba, hcase⟩
      · rw [heq]
      · rcases hcase with ⟨h1, h2⟩ | ⟨h1, h2⟩
        · rw [h1, h2]
          simp only [List.cons_append, List.nil_append]
          exact List.Perm.swap a b _
        · rw [h1, h2]
          simp only [List.cons_append, List.nil_append]
          exact List.Perm.swap b a _
    | succ j =>
      show (edataFrom n
          (s :: rest.set j (reverseSeg (rest.getD j defaultLine)))).Perm _
      simp only [edataFrom]
      exact List.Perm.append_left _ (ih (n + 1) j)

/-- The inner loop only consults the segment list through the straddle test
(for a callback that ignores the lazy point). -/
theorem innerLoop_congr (segs1 segs2 : List Line) (ns e : Nat)
    (g : Nat → Nat → Bool)
    (hDI : ∀ a b, DoesIntersect (segs1.getD a defaultLine)
        (segs1.getD b defaultLine) =
      DoesIntersect (segs2.getD a defaultLine) (segs2.getD b defaultLine)) :
    ∀ l, innerLoop segs1 ns e (liftCb g) l =
      innerLoop segs2 ns e (liftCb g) l := by
  intro l
  induction l with
  | nil => rfl
  | cons s rest ih =>
    simp only [innerLoop, liftCb]
    rw [hDI e s, ih]

/-- The scan only consults the segment list through the straddle test (for a
callback that ignores the lazy point). -/
theorem scanEvents_congr (segs1 segs2 : List Line) (ns : Nat)
    (g : Nat → Nat → Bool)
    (hDI : ∀ a b, DoesIntersect (segs1.getD a defaultLine)
        (segs1.getD b defaultLine) =
      DoesIntersect (segs2.getD a defaultLine) (segs2.getD b defaultLine)) :
    ∀ (evs : List event) (opens : List Nat),
      scanEvents segs1 ns (liftCb g) evs opens =
        scanEvents segs2 ns (liftCb g) evs opens := by
  intro evs
  induction evs with
  | nil => intro opens; rfl
  | cons e rest ih =>
    intro opens
    simp only [scanEvents]
    rw [innerLoop_congr segs1 segs2 ns e.edge g hDI, ih, ih]

/-- Run against the same queue, the reversed-segment array produces the same
invocation log as the original (for callbacks that ignore the lazy point):
the segment list only enters through the straddle test, which is
reversal-invariant. -/
theorem runWithQueue_set_congr (segments : List Line) (i : Nat)
    (g : Nat → Nat → Bool) (q : List event) :
    runWithQueue (segments.set i (reverseSeg (segments.getD i defaultLine))) q
        (liftCb g) =
      runWithQueue segments q (liftCb g) := by
  unfold runWithQueue
  rw [List.length_set]
  by_cases hl : segments.length < 3
  · rw [if_pos hl, if_pos hl]
  · rw [if_neg hl, if_neg hl]
    exact scanEvents_congr _ segments segments.length g
      (doesIntersect_getD_set segments i) q []

/-- C8 counterexample: under the actual sort contract (any sorted
permutation, tie order unspecified), reversing the endpoints of segment 0 of
`segsT` can change the outcome.  `segsTqA` is a legal queue of `segsT` and
`segsTqB` a legal queue of the reversed array (reversal swaps the two raw
events of segment 0, so both tie orders at the shared point (1,0) are legal
sort outcomes); the original run reports no pair (and is "simple"), the
reversed run reports {(0,2)} (and is not). -/
theorem c8_counterexample :
    ValidQueue segsT segsTqA ∧
      ValidQueue (segsT.set 0 (reverseSeg (segsT.getD 0 defaultLine)))
        segsTqB ∧
      ((runWithQueue segsT segsTqA alwaysTrue).map Prod.fst).toFinset ≠
        ((runWithQueue (segsT.set 0 (reverseSeg (segsT.getD 0 defaultLine)))
            segsTqB alwaysTrue).map Prod.fst).toFinset ∧
      (runWithQueue segsT segsTqA alwaysFalse).isEmpty = true ∧
      (runWithQueue (segsT.set 0 (reverseSeg (segsT.getD 0 defaultLine)))
          segsTqB alwaysFalse).isEmpty = false := by
  refine ⟨⟨?_, ?_⟩, ⟨?_, ?_⟩, ?_, ?_, ?_⟩ <;> decide

/-- C8 (amended): when the 2n event points are pairwise distinct — no ties
for the sort to break — reversing the endpoints of any one segment changes
neither the reported pair list under the always-continue callback nor the
emptiness of the abort-callback log that decides `IsSimple`, for any legal
sorted queues of the original and of the reversed array. -/
theorem c8_no_ties_reversal_invariance (segments : List Line) (i : Nat)
    (q qr : List event)
    (hd : List.Pairwise evPtNe (edata segments))
    (h1 : ValidQueue segments q)
    (h2 : ValidQueue
      (segments.set i (reverseSeg (segments.getD i defaultLine))) qr) :
    ((runWithQueue (segments.set i (reverseSeg (segments.getD i defaultLine)))
          qr alwaysTrue).map Prod.fst =
        (runWithQueue segments q alwaysTrue).map Prod.fst) ∧
      (runWithQueue (segments.set i (reverseSeg (segments.getD i defaultLine)))
          qr alwaysFalse).isEmpty =
        (runWithQueue segments q alwaysFalse).isEmpty := by
  have hsymm : Symmetric evPtNe := fun x y h he => h he.symm
  have hperm :
      (edata (segments.set i
        (reverseSeg (segments.getD i defaultLine)))).Perm (edata segments) :=
    edata_set_reverseSeg_perm segments 0 i
  have hq : qr = q := by
    apply eq_of_perm_of_sorted_on qr q
      (h2.1.symm.trans (hperm.trans h1.1)) h2.2 h1.2
    intro a ha b hb hab hba
    have hpt : a.ev = b.ev := evLE_antisymm_pt hab hba
    have ha2 : a ∈ edata segments :=
      hperm.mem_iff.mp (h2.1.mem_iff.mpr ha)
    have hb2 : b ∈ edata segments :=
      hperm.mem_iff.mp (h2.1.mem_iff.mpr hb)
    by_contra hne
    exact (hd.forall hsymm ha2 hb2 hne) hpt
  rw [hq]
  constructor
  · exact congrArg (List.map Prod.fst)
      (runWithQueue_set_congr segments i (fun _ _ => true) q)
  · exact congrArg List.isEmpty
      (runWithQueue_set_congr segments i (fun _ _ => false) q)

/-- Witness for the amended C8 at `segsD` (all eight event points distinct),
with the explicit sorted queue `segsDq`, legal for both the original and the
reversed array. -/
theorem c8_witness :
    ((runWithQueue (segsD.set 0 (reverseSeg (segsD.getD 0 defaultLine)))
          segsDq alwaysTrue).map Prod.fst =
        (runWithQueue segsD segsDq alwaysTrue).map Prod.fst) ∧
      (runWithQueue (segsD.set 0 (reverseSeg (segsD.getD 0 defaultLine)))
          segsDq alwaysFalse).isEmpty =
        (runWithQueue segsD segsDq alwaysFalse).isEmpty :=
  c8_no_ties_reversal_invariance segsD 0 segsDq segsDq (by decide)
    ⟨by decide, by decide⟩ ⟨by decide, by decide⟩

/-! ## Concrete evaluations of the embedding (spec §8 examples) -/

example : IsSimple bowtie = false := by decide
example : FindIntersectsPairs bowtie alwaysTrue = [(0, 2)] := by decide
example : IsSimple unitSquare = true := by decide
example : FindIntersectsPairs unitSquare alwaysTrue = [] := by decide

end Tegola
